import Mathlib

/-!
Verification of the paginated catalog cache / incremental loader of the
Saimo-Cell-V2 streaming application (src/services/streamingService.ts and
the searchMedia wrapper of the media service).

The TypeScript module keeps four module-level JS Maps
(PAGE_CACHE, CATEGORY_CACHE, LAST_PAGE, HAS_MORE); every state mutation of
those maps happens inside fetchCategoryPage.  We embed JS Maps and plain
objects as association lists (insertion ordered, set replaces in place,
matching Map.set / property-assignment semantics), and every operation as a
pure state-passing function.  The network is an oracle: each fetch call
takes the observable outcome of the HTTP round trip as an explicit
argument.
-/

namespace SaimoCell

/-! ## Association lists: shallow embedding of JS Map and plain objects -/

/-- Lookup of a key, first matching pair wins (JS Map.get / property read). -/
def lookupA {κ α : Type} [DecidableEq κ] : List (κ × α) → κ → Option α
  | [], _ => none
  | (k, v) :: rest, k0 => if k = k0 then some v else lookupA rest k0

/-- Set of a key: replace the first matching pair in place, else append
(JS Map.set / property assignment keeps insertion order). -/
def setA {κ α : Type} [DecidableEq κ] : List (κ × α) → κ → α → List (κ × α)
  | [], k0, v0 => [(k0, v0)]
  | (k, v) :: rest, k0, v0 =>
      if k = k0 then (k0, v0) :: rest else (k, v) :: setA rest k0 v0

theorem lookupA_nil {κ α : Type} [DecidableEq κ] (k : κ) :
    lookupA ([] : List (κ × α)) k = none := rfl

theorem lookupA_cons {κ α : Type} [DecidableEq κ] (k k0 : κ) (v : α) (rest : List (κ × α)) :
    lookupA ((k, v) :: rest) k0 = if k = k0 then some v else lookupA rest k0 := rfl

theorem lookupA_append {κ α : Type} [DecidableEq κ] (m n : List (κ × α)) (k : κ) :
    lookupA (m ++ n) k =
      match lookupA m k with
      | some v => some v
      | none => lookupA n k := by
  induction m with
  | nil => simp [lookupA]
  | cons p rest ih =>
      obtain ⟨k1, v1⟩ := p
      by_cases h : k1 = k <;> simp [lookupA, h, ih]

theorem lookupA_setA_self {κ α : Type} [DecidableEq κ] (m : List (κ × α)) (k : κ) (v : α) :
    lookupA (setA m k v) k = some v := by
  induction m with
  | nil => simp [setA, lookupA]
  | cons p rest ih =>
      obtain ⟨k1, v1⟩ := p
      by_cases h : k1 = k <;> simp [setA, lookupA, h, ih]

theorem lookupA_setA_ne {κ α : Type} [DecidableEq κ] (m : List (κ × α)) (k k0 : κ) (v : α)
    (h : k0 ≠ k) : lookupA (setA m k v) k0 = lookupA m k0 := by
  have hk : ¬ k = k0 := fun h1 => h h1.symm
  induction m with
  | nil =>
      simp only [setA, lookupA]
      rw [if_neg hk]
  | cons p rest ih =>
      obtain ⟨k1, v1⟩ := p
      simp only [setA]
      by_cases h1 : k1 = k
      · rw [if_pos h1]
        simp only [lookupA]
        rw [if_neg hk, if_neg (h1 ▸ hk)]
      · rw [if_neg h1]
        simp only [lookupA]
        by_cases h2 : k1 = k0
        · rw [if_pos h2, if_pos h2]
        · rw [if_neg h2, if_neg h2, ih]

theorem setA_eq_self {κ α : Type} [DecidableEq κ] (m : List (κ × α)) (k : κ) (v : α)
    (h : lookupA m k = some v) : setA m k v = m := by
  induction m with
  | nil => simp [lookupA] at h
  | cons p rest ih =>
      obtain ⟨k1, v1⟩ := p
      by_cases h1 : k1 = k
      · subst h1
        simp [lookupA] at h
        simp [setA, h]
      · simp [lookupA, h1] at h
        simp [setA, h1, ih h]

theorem lookupA_eq_none_iff {κ α : Type} [DecidableEq κ] (m : List (κ × α)) (k : κ) :
    lookupA m k = none ↔ k ∉ m.map Prod.fst := by
  induction m with
  | nil => simp [lookupA]
  | cons p rest ih =>
      obtain ⟨k1, v1⟩ := p
      by_cases h : k1 = k
      · subst h
        simp [lookupA]
      · simp only [lookupA, if_neg h, List.map_cons, List.mem_cons, ih]
        constructor
        · intro h1 h2
          rcases h2 with h2 | h2
          · exact h h2.symm
          · exact h1 h2
        · intro h1 h2
          exact h1 (Or.inr h2)

theorem lookupA_mem {κ α : Type} [DecidableEq κ] (m : List (κ × α)) (k : κ) (v : α)
    (h : lookupA m k = some v) : (k, v) ∈ m := by
  induction m with
  | nil => simp [lookupA] at h
  | cons p rest ih =>
      obtain ⟨k1, v1⟩ := p
      by_cases h1 : k1 = k
      · subst h1
        simp [lookupA] at h
        simp [h]
      · simp [lookupA, h1] at h
        exact List.mem_cons_of_mem _ (ih h)

theorem lookupA_of_mem_nodup {κ α : Type} [DecidableEq κ] (m : List (κ × α)) (k : κ) (v : α)
    (hmem : (k, v) ∈ m) (hnod : (m.map Prod.fst).Nodup) : lookupA m k = some v := by
  induction m with
  | nil => simp at hmem
  | cons p rest ih =>
      obtain ⟨k1, v1⟩ := p
      simp only [List.map_cons, List.nodup_cons] at hnod
      rcases List.mem_cons.mp hmem with h | h
      · cases h
        simp [lookupA]
      · have hk : k1 ≠ k := by
          intro h1
          subst h1
          exact hnod.1 (List.mem_map.mpr ⟨(k1, v), h, rfl⟩)
        simp [lookupA, hk, ih h hnod.2]

theorem setA_map_fst_of_lookup {κ α : Type} [DecidableEq κ] (m : List (κ × α)) (k : κ)
    (v w : α) (h : lookupA m k = some w) :
    (setA m k v).map Prod.fst = m.map Prod.fst := by
  induction m with
  | nil => simp [lookupA] at h
  | cons p rest ih =>
      obtain ⟨k1, v1⟩ := p
      by_cases h1 : k1 = k
      · subst h1
        simp [setA]
      · simp [lookupA, h1] at h
        simp [setA, h1, ih h]

theorem mem_setA {κ α : Type} [DecidableEq κ] (m : List (κ × α)) (k : κ) (v : α) (p : κ × α)
    (h : p ∈ setA m k v) : p = (k, v) ∨ p ∈ m := by
  induction m with
  | nil => simp [setA] at h; simp [h]
  | cons q rest ih =>
      obtain ⟨k1, v1⟩ := q
      by_cases h1 : k1 = k
      · subst h1
        simp [setA] at h
        rcases h with h | h
        · exact Or.inl h
        · exact Or.inr (List.mem_cons_of_mem _ h)
      · simp [setA, h1] at h
        rcases h with h | h
        · exact Or.inr (by simp [h])
        · rcases ih h with h2 | h2
          · exact Or.inl h2
          · exact Or.inr (List.mem_cons_of_mem _ h2)

/-! ## Data model

MediaItem mirrors the fields of the TypeScript MediaItem that the verified
operations consult: deduplicateItems reads tmdb.id, id, type and episodes;
search reads tmdb.title and name.  Presentation-only metadata fields of the
tmdb block (overview, poster, cast, ...) are never read by any verified
operation and are not carried.  An episodes object is an insertion-ordered
map from season strings to episode lists. -/

structure Episode where
  id : String
  episode : Int
  name : String
  url : String
  deriving DecidableEq, Repr

/-- Season-string to episode-list mapping (a plain JS object). -/
abbrev Episodes := List (String × List Episode)

structure Tmdb where
  id : Option Int
  title : String
  deriving DecidableEq, Repr

structure MediaItem where
  id : String
  name : String
  url : String
  category : String
  type : String
  isAdult : Bool
  episodes : Option Episodes
  tmdb : Option Tmdb
  deriving DecidableEq, Repr

/-- Effective key of an item: JS item.tmdb?.id?.toString() || item.id.
A present numeric tmdb id renders to a nonempty decimal string, which is
truthy, so the local id is used exactly when the tmdb block or its id is
absent. -/
def effectiveKey (item : MediaItem) : String :=
  match item.tmdb with
  | some t =>
      match t.id with
      | some n => toString n
      | none => item.id
  | none => item.id

/-- Display title of an item: JS item.tmdb?.title || item.name (an empty
tmdb title string is falsy and falls back to the raw name). -/
def rawTitle (item : MediaItem) : String :=
  match item.tmdb with
  | some t => if t.title = "" then item.name else t.title
  | none => item.name

/-! ## Episode sorting: JS episodes.sort((a, b) => a.episode - b.episode)

JS Array.prototype.sort is stable; a stable sort under the total preorder
induced by the episode number is unique, so the insertion sort of Mathlib
(which is stable) computes the same list. -/

def epLE (a b : Episode) : Prop := a.episode ≤ b.episode

instance : DecidableRel epLE := fun a b => inferInstanceAs (Decidable (a.episode ≤ b.episode))

instance : IsTotal Episode epLE := ⟨fun a b => Int.le_total a.episode b.episode⟩

instance : IsTrans Episode epLE := ⟨fun _ _ _ hab hbc => le_trans hab hbc⟩

def sortEps (l : List Episode) : List Episode := l.insertionSort epLE

theorem sortEps_sorted (l : List Episode) : List.Sorted epLE (sortEps l) :=
  List.sorted_insertionSort epLE l

theorem sortEps_eq_of_sorted {l : List Episode} (h : List.Sorted epLE l) : sortEps l = l :=
  h.insertionSort_eq

theorem sortEps_perm (l : List Episode) : (sortEps l).Perm l :=
  List.perm_insertionSort epLE l

/-! ## deduplicateItems (streamingService.ts lines 386-414)

The JS function folds the input list into a Map keyed by effective key.
A new key inserts the item; a repeated key merges episode lists when the
incoming item is a tv item with episodes and the stored item has episodes:
per season of the incoming item, a season absent from the stored item is
assigned directly (no re-sort), a season present on both is extended with
the episodes whose number is not yet present (the membership test runs
against the growing list) and then sorted by episode number.  The result
is the list of Map values in insertion order. -/

/-- JS inner forEach: push each new episode whose number is absent from the
growing target list (existingEps.push mutates the list the some-test reads). -/
def pushNew (exEps newEps : List Episode) : List Episode :=
  newEps.foldl
    (fun acc ep => if acc.any (fun e => e.episode == ep.episode) then acc else acc ++ [ep])
    exEps

/-- JS body of Object.keys(item.episodes).forEach(season => ...) for one season. -/
def mergeSeasonInto (acc : Episodes) (season : String) (eps : List Episode) : Episodes :=
  match lookupA acc season with
  | none => setA acc season eps
  | some exEps => setA acc season (sortEps (pushNew exEps eps))

/-- Merge the seasons of an incoming episodes object into the stored one. -/
def mergeEpisodes (exEps newEps : Episodes) : Episodes :=
  newEps.foldl (fun acc p => mergeSeasonInto acc p.1 p.2) exEps

/-- The accumulator of deduplicateItems: a JS Map from effective key to item. -/
abbrev ItemMap := List (String × MediaItem)

/-- One iteration of the for-of loop of deduplicateItems (the JS const key
is inlined). -/
def dedupStep (m : ItemMap) (item : MediaItem) : ItemMap :=
  match lookupA m (effectiveKey item) with
  | none => m ++ [(effectiveKey item, item)]
  | some existing =>
      if item.type = "tv" ∧ item.episodes.isSome then
        match existing.episodes, item.episodes with
        | some exEps, some newEps =>
            setA m (effectiveKey item)
              { existing with episodes := some (mergeEpisodes exEps newEps) }
        | _, _ => m
      else m

/-- deduplicateItems: fold into the key map, return Array.from(map.values()). -/
def deduplicateItems (items : List MediaItem) : List MediaItem :=
  (items.foldl dedupStep []).map Prod.snd

/-! ## Module state and the page fetcher

The four module-level Maps of streamingService.ts.  A page-cache key is the
string pattern categoryId-pN, represented by the pair (categoryId, N). -/

structure CacheState where
  pageCache : List ((String × Int) × List MediaItem)
  categoryCache : List (String × List MediaItem)
  lastPage : List (String × Int)
  hasMore : List (String × Bool)
  deriving DecidableEq, Repr

def initialState : CacheState := ⟨[], [], [], []⟩

/-- Observable outcome of one HTTP round trip of fetchCategoryPage.  The
page payload is given as the already-normalized item list (the source maps
each raw record through createMediaItem, a field-by-field normalization
that no verified property inspects). -/
inductive PageResponse where
  /-- The fetch promise rejected (network failure): lands in the catch. -/
  | fetchFailed
  /-- response.ok is false (e.g. HTTP 404). -/
  | httpNotOk
  /-- response.ok, but the body is not valid JSON: response.json() throws
  and control lands in the catch block. -/
  | bodyNotJson
  /-- response.ok and the body parsed as JSON, but not as an array. -/
  | bodyNotArray
  /-- response.ok and the body parsed as a JSON array of records. -/
  | bodyArray (data : List MediaItem)
  deriving DecidableEq, Repr

/-- JS expression x || 1 on an optional number (0 is falsy). -/
def jsOrOne (v : Option Int) : Int :=
  match v with
  | some p => if p = 0 then 1 else p
  | none => 1

/-- fetchCategoryPage (streamingService.ts lines 92-151): returns the item
list and the updated module state. -/
def fetchPage (s : CacheState) (categoryId : String) (page : Int) (resp : PageResponse) :
    List MediaItem × CacheState :=
  match lookupA s.pageCache (categoryId, page) with
  | some items => (items, s)
  | none =>
      match resp with
      | .fetchFailed => ([], s)
      | .httpNotOk => ([], { s with hasMore := setA s.hasMore categoryId false })
      | .bodyNotJson => ([], s)
      | .bodyNotArray => ([], { s with hasMore := setA s.hasMore categoryId false })
      | .bodyArray data =>
          if data.length = 0 then
            ([], { s with hasMore := setA s.hasMore categoryId false })
          else
            let items := data
            let s1 := { s with pageCache := setA s.pageCache (categoryId, page) items }
            let existing := (lookupA s1.categoryCache categoryId).getD []
            let merged := deduplicateItems (existing ++ items)
            let s2 := { s1 with categoryCache := setA s1.categoryCache categoryId merged }
            let currentLast := (lookupA s2.lastPage categoryId).getD 0
            let s3 :=
              if currentLast < page then
                { s2 with lastPage := setA s2.lastPage categoryId page }
              else s2
            let s4 :=
              if items.length < 50 then
                { s3 with hasMore := setA s3.hasMore categoryId false }
              else
                { s3 with hasMore := setA s3.hasMore categoryId true }
            (items, s4)

/-- categoryHasMore (lines 221-223): HAS_MORE.get(categoryId) !== false. -/
def categoryHasMore (s : CacheState) (categoryId : String) : Bool :=
  lookupA s.hasMore categoryId != some false

/-- getCategoryItems (lines 214-216). -/
def getCategoryItems (s : CacheState) (categoryId : String) : List MediaItem :=
  (lookupA s.categoryCache categoryId).getD []

/-- The page number loadNextPage (lines 188-209) passes to fetchCategoryPage,
or none when the early has-more guard returns without fetching. -/
def loadNextPageRequest (s : CacheState) (categoryId : String) : Option Int :=
  if lookupA s.hasMore categoryId = some false then none
  else some (jsOrOne (lookupA s.lastPage categoryId) + 1)

/-- loadNextPage (lines 188-209): returns the accumulated items, the
has-more flag and the updated state. -/
def loadNextPage (s : CacheState) (categoryId : String) (resp : PageResponse) :
    (List MediaItem × Bool) × CacheState :=
  let currentPage := jsOrOne (lookupA s.lastPage categoryId)
  let nextPage := currentPage + 1
  if lookupA s.hasMore categoryId = some false then
    (((lookupA s.categoryCache categoryId).getD [], false), s)
  else
    let s1 := (fetchPage s categoryId nextPage resp).2
    (((lookupA s1.categoryCache categoryId).getD [],
      lookupA s1.hasMore categoryId != some false), s1)

/-- The page number one inner-loop iteration of startBackgroundLoading
(lines 307-320) computes: (LAST_PAGE.get(cat.id) || 1) + 1. -/
def backgroundNextPage (s : CacheState) (categoryId : String) : Int :=
  jsOrOne (lookupA s.lastPage categoryId) + 1

/-- One inner-loop iteration of startBackgroundLoading for one category:
skip when the has-more guard fails or the next page is already in the page
cache, otherwise fetch the next page. -/
def backgroundStep (s : CacheState) (categoryId : String) (resp : PageResponse) : CacheState :=
  if lookupA s.hasMore categoryId = some false then s
  else if (lookupA s.pageCache (categoryId, backgroundNextPage s categoryId)).isSome then s
  else (fetchPage s categoryId (backgroundNextPage s categoryId) resp).2

/-! Every mutation of the four module Maps happens inside fetchCategoryPage:
loadAllPreviews, loadNextPage, loadAllPagesForCategory and the background
loader only mutate state through calls to it.  A reachable state is
therefore a fold of fetchCategoryPage steps from the empty initial state. -/

structure FetchOp where
  categoryId : String
  page : Int
  resp : PageResponse
  deriving DecidableEq, Repr

def doFetch (s : CacheState) (op : FetchOp) : CacheState :=
  (fetchPage s op.categoryId op.page op.resp).2

def runFetches (ops : List FetchOp) : CacheState :=
  ops.foldl doFetch initialState

/-! ## Search (streamingService.ts lines 251-270, mediaService searchMedia)

String primitives model the JS ones over the character list: toLowerCase,
trim and String.prototype.includes (contiguous substring test). -/

def lowerStr (s : String) : String := ⟨s.data.map Char.toLower⟩

def trimStr (s : String) : String :=
  ⟨((s.data.dropWhile Char.isWhitespace).reverse.dropWhile Char.isWhitespace).reverse⟩

/-- Char-list version of: pat is an initial segment of l. -/
def leadsWith : List Char → List Char → Bool
  | [], _ => true
  | _ :: _, [] => false
  | a :: as, b :: bs => a == b && leadsWith as bs

/-- Char-list version of JS String.prototype.includes. -/
def hasSegment (pat : List Char) : List Char → Bool
  | [] => leadsWith pat []
  | c :: rest => leadsWith pat (c :: rest) || hasSegment pat rest

/-- JS s.includes(pat). -/
def strIncludes (s pat : String) : Bool := hasSegment pat.data s.data

/-- The seen-set driven scan body of searchInLoadedData for one item:
skip an already seen id, test the lowercased display title for the
normalized query, push and record the id on a match. -/
def searchScanStep (normalized : String) (acc : List MediaItem × List String)
    (item : MediaItem) : List MediaItem × List String :=
  if acc.2.contains item.id then acc
  else if strIncludes (lowerStr (rawTitle item)) normalized then
    (acc.1 ++ [item], acc.2 ++ [item.id])
  else acc

/-- searchInLoadedData (lines 251-270): normalize the query, return [] when
empty, else scan every category of CATEGORY_CACHE in insertion order. -/
def searchInLoadedData (s : CacheState) (query : String) : List MediaItem :=
  let normalized := trimStr (lowerStr query)
  if normalized = "" then []
  else
    (s.categoryCache.foldl
      (fun acc p => p.2.foldl (searchScanStep normalized) acc) ([], [])).1

/-- deduplicateByName (mediaService): keep the first item per
trimmed-lowercased display title. -/
def deduplicateByName (items : List MediaItem) : List MediaItem :=
  (items.foldl
    (fun (acc : List MediaItem × List String) item =>
      let nm := lowerStr (trimStr (rawTitle item))
      if acc.2.contains nm then acc else (acc.1 ++ [item], acc.2 ++ [nm]))
    ([], [])).1

/-- searchMedia (mediaService lines 50-66).  With an items argument present
and nonempty it filters that list, otherwise it scans the whole cache; the
result set is deduplicated by name in both cases. -/
def searchMedia (s : CacheState) (query : String) (items : Option (List MediaItem)) :
    List MediaItem :=
  match items with
  | some given =>
      if given.length ≠ 0 then
        let normalized := trimStr (lowerStr query)
        if normalized = "" then deduplicateByName given
        else
          deduplicateByName
            (given.filter (fun item => strIncludes (lowerStr (rawTitle item)) normalized))
      else deduplicateByName (searchInLoadedData s query)
  | none => deduplicateByName (searchInLoadedData s query)

/-! ## Background deep-loader lifecycle (lines 286-344)

The two module booleans isBackgroundLoading and stopBackgroundLoading plus
a ghost count of loop bodies in flight.  JS runs the mutating sections
atomically (no await between the guard of start and its assignments), so
each event is one transition.  The loop body only reads the flags; the
only writer of isBackgroundLoading := false is the exit of the loop. -/

structure LoaderState where
  isBackgroundLoading : Bool
  stopBackgroundLoading : Bool
  loopsInFlight : Nat
  deriving DecidableEq, Repr

inductive LoaderEvent where
  /-- A call of startBackgroundLoading: no-op when already running, else
  set the flags and enter the loop. -/
  | startCall
  /-- A call of stopLoading: set the cancellation flag. -/
  | stopCall
  /-- One iteration of the running loop: touches the caches, not the flags. -/
  | loopIteration
  /-- The running loop exits (completion, cancellation or error) and clears
  the running flag. -/
  | loopFinish
  deriving DecidableEq, Repr

def loaderInit : LoaderState := ⟨false, false, 0⟩

def loaderStep (s : LoaderState) : LoaderEvent → LoaderState
  | .startCall =>
      if s.isBackgroundLoading then s
      else ⟨true, false, s.loopsInFlight + 1⟩
  | .stopCall => { s with stopBackgroundLoading := true }
  | .loopIteration => s
  | .loopFinish =>
      if s.loopsInFlight = 0 then s
      else { s with isBackgroundLoading := false, loopsInFlight := s.loopsInFlight - 1 }

def runLoader (evs : List LoaderEvent) : LoaderState :=
  evs.foldl loaderStep loaderInit

/-! ## Generic helpers and concrete fixtures -/

theorem foldl_inv {σ ι : Type} (f : σ → ι → σ) (P : σ → Prop)
    (h : ∀ s i, P s → P (f s i)) : ∀ (l : List ι) (s : σ), P s → P (l.foldl f s) := by
  intro l
  induction l with
  | nil => exact fun s hs => hs
  | cons i rest ih => exact fun s hs => ih _ (h s i hs)

/-- A normalized record with every optional field absent, matching the
createMediaItem output for an empty raw record at index 0. -/
def baseItem : MediaItem :=
  { id := "item-0", name := "Sem título", url := "", category := "",
    type := "movie", isAdult := false, episodes := none, tmdb := none }

def mkEp (n : Int) : Episode := { id := toString n, episode := n, name := "", url := "" }

/-! ## fetchCategoryPage branch characterizations -/

/-- A cache hit returns the cached page and leaves the state untouched. -/
theorem fetchPage_cached (s : CacheState) (c : String) (page : Int) (resp : PageResponse)
    (items : List MediaItem) (h : lookupA s.pageCache (c, page) = some items) :
    fetchPage s c page resp = (items, s) := by
  unfold fetchPage
  rw [h]

/-- The success branch: an uncached page whose body is a nonempty array
caches the page, folds it into the category cache, advances the last-page
cursor when the page number exceeds it, and records the size heuristic. -/
theorem fetchPage_success (s : CacheState) (c : String) (page : Int) (data : List MediaItem)
    (hun : lookupA s.pageCache (c, page) = none) (hne : data.length ≠ 0) :
    fetchPage s c page (.bodyArray data) =
      (data,
        { pageCache := setA s.pageCache (c, page) data,
          categoryCache := setA s.categoryCache c
            (deduplicateItems ((lookupA s.categoryCache c).getD [] ++ data)),
          lastPage :=
            if (lookupA s.lastPage c).getD 0 < page then setA s.lastPage c page
            else s.lastPage,
          hasMore := setA s.hasMore c (if data.length < 50 then false else true) }) := by
  unfold fetchPage
  rw [hun]
  simp only [hne, if_false, ite_false]
  by_cases hlast : (lookupA s.lastPage c).getD 0 < page <;>
    by_cases h50 : data.length < 50 <;>
      simp [hlast, h50]

/-- The non-success branches of an uncached fetch. -/
theorem fetchPage_failures (s : CacheState) (c : String) (page : Int)
    (hun : lookupA s.pageCache (c, page) = none) :
    fetchPage s c page .httpNotOk = ([], { s with hasMore := setA s.hasMore c false }) ∧
    fetchPage s c page .bodyNotArray = ([], { s with hasMore := setA s.hasMore c false }) ∧
    fetchPage s c page (.bodyArray []) = ([], { s with hasMore := setA s.hasMore c false }) ∧
    fetchPage s c page .bodyNotJson = ([], s) ∧
    fetchPage s c page .fetchFailed = ([], s) := by
  refine ⟨?_, ?_, ?_, ?_, ?_⟩ <;> (unfold fetchPage; rw [hun])
  simp

/-- The last-page cursor of a fetch either stays or is set to the fetched
page number, and only when that number strictly exceeds the stored one. -/
theorem fetchPage_lastPage_cases (s : CacheState) (c : String) (page : Int)
    (resp : PageResponse) :
    (fetchPage s c page resp).2.lastPage = s.lastPage ∨
      ((lookupA s.lastPage c).getD 0 < page ∧
        (fetchPage s c page resp).2.lastPage = setA s.lastPage c page) := by
  cases hpc : lookupA s.pageCache (c, page) with
  | some items => rw [fetchPage_cached s c page resp items hpc]; exact Or.inl rfl
  | none =>
      cases resp with
      | fetchFailed => left; rw [(fetchPage_failures s c page hpc).2.2.2.2]
      | httpNotOk => left; rw [(fetchPage_failures s c page hpc).1]
      | bodyNotJson => left; rw [(fetchPage_failures s c page hpc).2.2.2.1]
      | bodyNotArray => left; rw [(fetchPage_failures s c page hpc).2.1]
      | bodyArray data =>
          by_cases hlen : data.length = 0
          · left
            have hdata : data = [] := List.length_eq_zero.mp hlen
            subst hdata
            rw [(fetchPage_failures s c page hpc).2.2.1]
          · rw [fetchPage_success s c page data hpc hlen]
            by_cases hlast : (lookupA s.lastPage c).getD 0 < page
            · exact Or.inr ⟨hlast, by simp [hlast]⟩
            · exact Or.inl (by simp [hlast])

/-- Invariant: every stored last-page number is at least 1 (a page is only
stored when it strictly exceeds the stored value, which defaults to 0). -/
def lastPageGeOne (s : CacheState) : Prop :=
  ∀ c p, lookupA s.lastPage c = some p → 1 ≤ p

theorem lastPageGeOne_preserved (s : CacheState) (op : FetchOp) (h : lastPageGeOne s) :
    lastPageGeOne (doFetch s op) := by
  intro c p hl
  rcases fetchPage_lastPage_cases s op.categoryId op.page op.resp with hcase | ⟨hlt, hcase⟩
  · exact h c p (by rw [doFetch, hcase] at hl; exact hl)
  · rw [doFetch, hcase] at hl
    by_cases hc : c = op.categoryId
    · subst hc
      rw [lookupA_setA_self] at hl
      injection hl with hpq
      subst hpq
      cases hv : lookupA s.lastPage op.categoryId with
      | none => rw [hv] at hlt; simpa using hlt
      | some v =>
          rw [hv] at hlt
          have hv1 := h op.categoryId v hv
          simp only [Option.getD_some] at hlt
          omega
    · rw [lookupA_setA_ne _ _ _ _ hc] at hl
      exact h c p hl

theorem runFetches_lastPageGeOne (ops : List FetchOp) : lastPageGeOne (runFetches ops) :=
  foldl_inv doFetch lastPageGeOne (fun s op h => lastPageGeOne_preserved s op h) ops
    initialState (fun c p h => by simp [initialState, lookupA] at h)

theorem jsOrOne_ge_one (s : CacheState) (c : String) (h : lastPageGeOne s) :
    1 ≤ jsOrOne (lookupA s.lastPage c) := by
  unfold jsOrOne
  cases hv : lookupA s.lastPage c with
  | none => simp
  | some v =>
      have := h c v hv
      by_cases h0 : v = 0 <;> simp [h0]
      omega

/-! ## Claim theorems: terminal detection and cursors -/

/-- C4: after an uncached successful page fetch whose body array holds
strictly fewer than 50 items, categoryHasMore for that category is false;
after one holding 50 or more items, categoryHasMore is true. -/
theorem terminal_detection_by_page_size (s : CacheState) (c : String) (page : Int)
    (data : List MediaItem) (hun : lookupA s.pageCache (c, page) = none)
    (hne : data.length ≠ 0) :
    (data.length < 50 →
      categoryHasMore (fetchPage s c page (.bodyArray data)).2 c = false) ∧
    (50 ≤ data.length →
      categoryHasMore (fetchPage s c page (.bodyArray data)).2 c = true) := by
  rw [fetchPage_success s c page data hun hne]
  constructor
  · intro h50
    simp [categoryHasMore, h50, lookupA_setA_self]
  · intro h50
    have hnot : ¬ data.length < 50 := Nat.not_lt.mpr h50
    simp [categoryHasMore, hnot, lookupA_setA_self]

/-- C4 witness: a one-item page turns has-more off, a 50-item page turns
it on, both from the initial state. -/
theorem terminal_detection_witness :
    categoryHasMore (fetchPage initialState "acao" 1 (.bodyArray [baseItem])).2 "acao"
      = false ∧
    categoryHasMore
      (fetchPage initialState "acao" 1 (.bodyArray (List.replicate 50 baseItem))).2 "acao"
      = true :=
  ⟨(terminal_detection_by_page_size initialState "acao" 1 [baseItem] (by decide)
      (by decide)).1 (by decide),
   (terminal_detection_by_page_size initialState "acao" 1 (List.replicate 50 baseItem)
      (by decide) (by decide)).2 (by decide)⟩

/-- C5 counterexample: a response whose body fails JSON parsing entirely
(response.json() throws) returns the empty list but does NOT record
has-more=false — the exception lands in the catch block, which leaves
HAS_MORE untouched, so categoryHasMore stays true.  The claim asserts
has-more=false is recorded for every body that fails to parse as a JSON
array. -/
theorem invalid_json_keeps_has_more :
    (fetchPage initialState "acao" 1 .bodyNotJson).1 = [] ∧
    categoryHasMore (fetchPage initialState "acao" 1 .bodyNotJson).2 "acao" = true := by
  decide

/-- C5 amended: for an uncached page, an HTTP-not-found response, a body
that parses as JSON but is not an array, and a body that is an empty array
all return the empty list and record has-more=false; a body that fails
JSON parsing entirely, like a network-level failure, returns the empty
list with the state unchanged (has-more is not recorded). -/
theorem terminal_signals_characterization (s : CacheState) (c : String) (page : Int)
    (hun : lookupA s.pageCache (c, page) = none) :
    ((fetchPage s c page .httpNotOk).1 = [] ∧
      categoryHasMore (fetchPage s c page .httpNotOk).2 c = false) ∧
    ((fetchPage s c page .bodyNotArray).1 = [] ∧
      categoryHasMore (fetchPage s c page .bodyNotArray).2 c = false) ∧
    ((fetchPage s c page (.bodyArray [])).1 = [] ∧
      categoryHasMore (fetchPage s c page (.bodyArray [])).2 c = false) ∧
    fetchPage s c page .bodyNotJson = ([], s) ∧
    fetchPage s c page .fetchFailed = ([], s) := by
  obtain ⟨h1, h2, h3, h4, h5⟩ := fetchPage_failures s c page hun
  refine ⟨⟨by rw [h1], ?_⟩, ⟨by rw [h2], ?_⟩, ⟨by rw [h3], ?_⟩, h4, h5⟩ <;>
    [rw [h1]; rw [h2]; rw [h3]] <;>
    simp [categoryHasMore, lookupA_setA_self]

/-- C5 witness: the 404 branch at a concrete input. -/
theorem terminal_signals_witness :
    (fetchPage initialState "acao" 1 .httpNotOk).1 = [] ∧
    categoryHasMore (fetchPage initialState "acao" 1 .httpNotOk).2 "acao" = false :=
  (terminal_signals_characterization initialState "acao" 1 (by decide)).1

/-- C7 counterexample: on a fresh state, where no page has ever been
fetched, the first loadNextPage call requests page 2, not page 1:
the cursor reads (LAST_PAGE.get || 1) + 1. -/
theorem first_requested_page_is_two :
    loadNextPageRequest initialState "acao" = some 2 ∧
      loadNextPageRequest initialState "acao" ≠ some 1 := by
  decide

/-- C7 amended: over any reachable state, every page number loadNextPage
requests is (last-known-page or 1) + 1 — in particular 2, not 1, when no
page was ever fetched — and after an uncached successful fetch of the
requested page with at least 50 items the next request is exactly one
greater. -/
theorem next_page_cursor (ops : List FetchOp) (c : String) :
    (∀ p, loadNextPageRequest (runFetches ops) c = some p →
      p = jsOrOne (lookupA (runFetches ops).lastPage c) + 1) ∧
    (lookupA (runFetches ops).lastPage c = none →
      lookupA (runFetches ops).hasMore c ≠ some false →
      loadNextPageRequest (runFetches ops) c = some 2) ∧
    (∀ p data, loadNextPageRequest (runFetches ops) c = some p →
      lookupA (runFetches ops).pageCache (c, p) = none → 50 ≤ data.length →
      loadNextPageRequest (loadNextPage (runFetches ops) c (.bodyArray data)).2 c =
        some (p + 1)) := by
  have hinv := runFetches_lastPageGeOne ops
  refine ⟨?_, ?_, ?_⟩
  · intro p hp
    unfold loadNextPageRequest at hp
    by_cases hg : lookupA (runFetches ops).hasMore c = some false
    · simp [hg] at hp
    · simp [hg] at hp
      omega
  · intro hlp hg
    unfold loadNextPageRequest
    simp [hg, hlp, jsOrOne]
  · intro p data hp hun h50
    have hg : ¬ lookupA (runFetches ops).hasMore c = some false := by
      intro hg
      unfold loadNextPageRequest at hp
      simp [hg] at hp
    have hpeq : p = jsOrOne (lookupA (runFetches ops).lastPage c) + 1 := by
      unfold loadNextPageRequest at hp
      simp [hg] at hp
      omega
    have hge : 1 ≤ jsOrOne (lookupA (runFetches ops).lastPage c) :=
      jsOrOne_ge_one _ c hinv
    have hp2 : 2 ≤ p := by omega
    have hne : data.length ≠ 0 := by omega
    have hlast : (lookupA (runFetches ops).lastPage c).getD 0 < p := by
      cases hv : lookupA (runFetches ops).lastPage c with
      | none => simp; omega
      | some v =>
          have := hinv c v hv
          rw [hv] at hpeq
          simp only [Option.getD_some]
          unfold jsOrOne at hpeq
          by_cases h0 : v = 0
          · omega
          · simp [h0] at hpeq; omega
    unfold loadNextPage
    simp only [hg, if_false]
    rw [← hpeq]
    rw [fetchPage_success _ c p data hun hne]
    have hnot50 : ¬ data.length < 50 := Nat.not_lt.mpr h50
    unfold loadNextPageRequest
    simp only [hnot50, if_false, hlast, if_true, lookupA_setA_self]
    have hptrue : (some true : Option Bool) ≠ some false := by simp
    simp [hptrue, jsOrOne]
    omega

/-- C7 witness: the fresh-state conjunct at the concrete category. -/
theorem next_page_cursor_witness :
    loadNextPageRequest (runFetches []) "acao" = some 2 :=
  (next_page_cursor [] "acao").2.1 (by decide) (by decide)

/-- C10: the background deep-loader computes the page to fetch for a
category as (last-known-page or 1) + 1; over every reachable state this is
at least 2, so the deep-loader never requests page 1 of any category. -/
theorem background_never_page_one (ops : List FetchOp) (c : String) :
    2 ≤ backgroundNextPage (runFetches ops) c := by
  have h := runFetches_lastPageGeOne ops
  have := jsOrOne_ge_one (runFetches ops) c h
  unfold backgroundNextPage
  omega

/-! ## Has-more preservation (claim C6) -/

/-- A fetch changes HAS_MORE only at its own category. -/
theorem fetchPage_hasMore_cases (s : CacheState) (c : String) (page : Int)
    (resp : PageResponse) :
    (fetchPage s c page resp).2.hasMore = s.hasMore ∨
      ∃ b, (fetchPage s c page resp).2.hasMore = setA s.hasMore c b := by
  cases hpc : lookupA s.pageCache (c, page) with
  | some items => rw [fetchPage_cached s c page resp items hpc]; exact Or.inl rfl
  | none =>
      cases resp with
      | fetchFailed => left; rw [(fetchPage_failures s c page hpc).2.2.2.2]
      | httpNotOk => right; exact ⟨false, by rw [(fetchPage_failures s c page hpc).1]⟩
      | bodyNotJson => left; rw [(fetchPage_failures s c page hpc).2.2.2.1]
      | bodyNotArray => right; exact ⟨false, by rw [(fetchPage_failures s c page hpc).2.1]⟩
      | bodyArray data =>
          by_cases hlen : data.length = 0
          · right
            have hdata : data = [] := List.length_eq_zero.mp hlen
            subst hdata
            exact ⟨false, by rw [(fetchPage_failures s c page hpc).2.2.1]⟩
          · right
            rw [fetchPage_success s c page data hpc hlen]
            exact ⟨if data.length < 50 then false else true, rfl⟩

/-- A fetch of a different category never changes HAS_MORE of this one. -/
theorem fetchPage_hasMore_other (s : CacheState) (c c2 : String) (page : Int)
    (resp : PageResponse) (hne : c ≠ c2) :
    lookupA (fetchPage s c2 page resp).2.hasMore c = lookupA s.hasMore c := by
  rcases fetchPage_hasMore_cases s c2 page resp with h | ⟨b, h⟩
  · rw [h]
  · rw [h, lookupA_setA_ne _ _ _ _ hne]

/-- C6 counterexample: after a 404 on page 1 of a category, has-more is
false; a later direct fetch of the still-uncached page 1 that succeeds
with 50 items sets has-more back to true — it does not stay false until a
full cache reset. -/
theorem has_more_resurrected :
    categoryHasMore (runFetches [⟨"acao", 1, .httpNotOk⟩]) "acao" = false ∧
    categoryHasMore
      (runFetches [⟨"acao", 1, .httpNotOk⟩,
        ⟨"acao", 1, .bodyArray (List.replicate 50 baseItem)⟩]) "acao" = true := by
  decide

/-- C6 amended: has-more defaults to true while no signal is recorded, and
once false it is preserved by every loadNextPage call and every
background-loader iteration, of this or of any other category (those
operations never fetch a category marked exhausted); a direct
fetchCategoryPage of an uncached page — also reachable through
loadAllPreviews when the category cache is empty — can set it back to
true on a success with 50 or more items. -/
theorem has_more_false_preserved (s : CacheState) (c c2 : String) (resp : PageResponse) :
    (lookupA s.hasMore c = none → categoryHasMore s c = true) ∧
    (lookupA s.hasMore c = some false →
      lookupA (loadNextPage s c2 resp).2.hasMore c = some false ∧
      lookupA (backgroundStep s c2 resp).hasMore c = some false) := by
  constructor
  · intro h
    simp [categoryHasMore, h]
  · intro h
    by_cases hc : c = c2
    · subst hc
      constructor
      · unfold loadNextPage
        simp [h]
      · unfold backgroundStep
        simp [h]
    · have hne : c ≠ c2 := hc
      constructor
      · unfold loadNextPage
        by_cases hg : lookupA s.hasMore c2 = some false
        · simp [hg, h]
        · simp only [hg, if_false]
          rw [fetchPage_hasMore_other s c c2 _ resp hne]
          exact h
      · unfold backgroundStep
        by_cases hg : lookupA s.hasMore c2 = some false
        · simp [hg, h]
        · simp only [hg, if_false]
          by_cases hpc : (lookupA s.pageCache (c2, backgroundNextPage s c2)).isSome
          · simp [hpc, h]
          · rw [if_neg hpc]
            rw [fetchPage_hasMore_other s c c2 _ resp hne]
            exact h

/-- C6 witness: preservation at a concrete exhausted category. -/
theorem has_more_false_preserved_witness :
    lookupA
      (loadNextPage (runFetches [⟨"acao", 1, .httpNotOk⟩]) "acao" .fetchFailed).2.hasMore
      "acao" = some false :=
  ((has_more_false_preserved (runFetches [⟨"acao", 1, .httpNotOk⟩]) "acao" "acao"
      .fetchFailed).2 (by decide)).1

/-! ## Well-formedness of the dedup key map (claims C3 and C1) -/

/-- The key map built by deduplicateItems: every stored pair is keyed by
the effective key of its item, and keys are pairwise distinct. -/
def wfMap (m : ItemMap) : Prop :=
  (∀ p ∈ m, effectiveKey p.2 = p.1) ∧ (m.map Prod.fst).Nodup

theorem effectiveKey_set_episodes (x : MediaItem) (e : Option Episodes) :
    effectiveKey { x with episodes := e } = effectiveKey x := rfl

theorem dedupStep_wf (m : ItemMap) (item : MediaItem) (h : wfMap m) :
    wfMap (dedupStep m item) := by
  obtain ⟨hkeys, hnod⟩ := h
  unfold dedupStep
  cases hl : lookupA m (effectiveKey item) with
  | none =>
      constructor
      · intro p hp
        rcases List.mem_append.mp hp with hp | hp
        · exact hkeys p hp
        · simp at hp; subst hp; rfl
      · have hnotin : effectiveKey item ∉ m.map Prod.fst :=
          (lookupA_eq_none_iff m _).mp hl
        simp [List.nodup_append, hnod, hnotin]
  | some existing =>
      dsimp only
      by_cases hguard : item.type = "tv" ∧ item.episodes.isSome
      · rw [if_pos hguard]
        cases hex : existing.episodes with
        | none =>
            cases hni : item.episodes with
            | none => exact ⟨hkeys, hnod⟩
            | some newEps => exact ⟨hkeys, hnod⟩
        | some exEps =>
            cases hni : item.episodes with
            | none => exact ⟨hkeys, hnod⟩
            | some newEps =>
                constructor
                · intro p hp
                  rcases mem_setA _ _ _ p hp with hp | hp
                  · subst hp
                    have hk := hkeys _ (lookupA_mem m _ _ hl)
                    simpa [effectiveKey_set_episodes] using hk
                  · exact hkeys p hp
                · rw [setA_map_fst_of_lookup m _ _ existing hl]
                  exact hnod
      · rw [if_neg hguard]; exact ⟨hkeys, hnod⟩

theorem wfMap_fold (l : List MediaItem) : wfMap (l.foldl dedupStep []) :=
  foldl_inv dedupStep wfMap (fun m item h => dedupStep_wf m item h) l []
    ⟨fun p hp => absurd hp (List.not_mem_nil p), List.nodup_nil⟩

/-- The output of deduplicateItems carries pairwise distinct effective keys. -/
theorem dedup_pairwise (l : List MediaItem) :
    (deduplicateItems l).Pairwise (fun a b => effectiveKey a ≠ effectiveKey b) := by
  obtain ⟨hkeys, hnod⟩ := wfMap_fold l
  unfold deduplicateItems
  rw [List.pairwise_map]
  have hp : (List.foldl dedupStep [] l).Pairwise (fun p q => p.1 ≠ q.1) :=
    (List.pairwise_map).mp hnod
  refine hp.imp_of_mem ?_
  intro p q hpm hqm hne
  rw [hkeys p hpm, hkeys q hqm]
  exact hne

/-! ## Category-cache invariant (claim C3) -/

theorem fetchPage_categoryCache_cases (s : CacheState) (c : String) (page : Int)
    (resp : PageResponse) :
    (fetchPage s c page resp).2.categoryCache = s.categoryCache ∨
      ∃ data, (fetchPage s c page resp).2.categoryCache =
        setA s.categoryCache c
          (deduplicateItems ((lookupA s.categoryCache c).getD [] ++ data)) := by
  cases hpc : lookupA s.pageCache (c, page) with
  | some items => rw [fetchPage_cached s c page resp items hpc]; exact Or.inl rfl
  | none =>
      cases resp with
      | fetchFailed => left; rw [(fetchPage_failures s c page hpc).2.2.2.2]
      | httpNotOk => left; rw [(fetchPage_failures s c page hpc).1]
      | bodyNotJson => left; rw [(fetchPage_failures s c page hpc).2.2.2.1]
      | bodyNotArray => left; rw [(fetchPage_failures s c page hpc).2.1]
      | bodyArray data =>
          by_cases hlen : data.length = 0
          · left
            have hdata : data = [] := List.length_eq_zero.mp hlen
            subst hdata
            rw [(fetchPage_failures s c page hpc).2.2.1]
          · right
            exact ⟨data, by rw [fetchPage_success s c page data hpc hlen]⟩

/-- Every category-cache value is an image of deduplicateItems. -/
def dedupImageInv (s : CacheState) : Prop :=
  ∀ c items, lookupA s.categoryCache c = some items → ∃ l, items = deduplicateItems l

theorem dedupImageInv_preserved (s : CacheState) (op : FetchOp) (h : dedupImageInv s) :
    dedupImageInv (doFetch s op) := by
  intro c items hl
  rcases fetchPage_categoryCache_cases s op.categoryId op.page op.resp
    with hcase | ⟨data, hcase⟩
  · exact h c items (by rw [doFetch, hcase] at hl; exact hl)
  · rw [doFetch, hcase] at hl
    by_cases hc : c = op.categoryId
    · subst hc
      rw [lookupA_setA_self] at hl
      injection hl with hl
      exact ⟨_, hl.symm⟩
    · rw [lookupA_setA_ne _ _ _ _ hc] at hl
      exact h c items hl

theorem runFetches_dedupImageInv (ops : List FetchOp) : dedupImageInv (runFetches ops) :=
  foldl_inv doFetch dedupImageInv (fun s op h => dedupImageInv_preserved s op h) ops
    initialState (fun c items h => by simp [initialState, lookupA] at h)

/-- C3: over every reachable state — any sequence of page merges — a
category's accumulated merged item list never holds two items with the
same effective key (tmdb id as string when present, else local id). -/
theorem category_cache_keys_distinct (ops : List FetchOp) (c : String)
    (items : List MediaItem)
    (h : lookupA (runFetches ops).categoryCache c = some items) :
    items.Pairwise (fun a b => effectiveKey a ≠ effectiveKey b) := by
  obtain ⟨l, rfl⟩ := runFetches_dedupImageInv ops c items h
  exact dedup_pairwise l

/-- C3 witness: a concrete two-item page. -/
theorem category_cache_keys_distinct_witness :
    [{ baseItem with id := "a" }, { baseItem with id := "b" }].Pairwise
      (fun a b => effectiveKey a ≠ effectiveKey b) :=
  category_cache_keys_distinct
    [⟨"acao", 1,
      .bodyArray [{ baseItem with id := "a" }, { baseItem with id := "b" }]⟩]
    "acao" _ (by decide)

/-! ## Background deep-loader lifecycle invariant (claim C9) -/

/-- At most one loop in flight, and a loop in flight implies the running
flag is set. -/
def loaderInv (s : LoaderState) : Prop :=
  s.loopsInFlight ≤ 1 ∧ (s.isBackgroundLoading = false → s.loopsInFlight = 0)

theorem loaderStep_inv (s : LoaderState) (e : LoaderEvent) (h : loaderInv s) :
    loaderInv (loaderStep s e) := by
  obtain ⟨h1, h2⟩ := h
  cases e with
  | startCall =>
      unfold loaderStep
      by_cases hb : s.isBackgroundLoading
      · simp [hb]; exact ⟨h1, h2⟩
      · have h0 : s.loopsInFlight = 0 := h2 (Bool.not_eq_true _ ▸ by simpa using hb)
        simp [hb, loaderInv, h0]
  | stopCall => exact ⟨h1, h2⟩
  | loopIteration => exact ⟨h1, h2⟩
  | loopFinish =>
      unfold loaderStep
      by_cases hz : s.loopsInFlight = 0
      · simp [hz]; exact ⟨h1, h2⟩
      · simp [hz, loaderInv]
        omega

theorem runLoader_inv (evs : List LoaderEvent) : loaderInv (runLoader evs) :=
  foldl_inv loaderStep loaderInv (fun s e h => loaderStep_inv s e h) evs loaderInit
    ⟨Nat.zero_le 1, fun _ => rfl⟩

/-- C9: over every reachable loader state, at most one deep-loader loop is
in flight; calling start while the running flag is set is a strict no-op
(no second loop begins, the state is unchanged); and the running flag is
cleared only by the loop exit event — start, stop and loop iterations
never clear it. -/
theorem single_loader_invariant (evs : List LoaderEvent) :
    (runLoader evs).loopsInFlight ≤ 1 ∧
    ((runLoader evs).isBackgroundLoading = false → (runLoader evs).loopsInFlight = 0) ∧
    ((runLoader evs).isBackgroundLoading = true →
      loaderStep (runLoader evs) .startCall = runLoader evs) ∧
    (∀ e, e ≠ LoaderEvent.loopFinish → (runLoader evs).isBackgroundLoading = true →
      (loaderStep (runLoader evs) e).isBackgroundLoading = true) := by
  obtain ⟨h1, h2⟩ := runLoader_inv evs
  refine ⟨h1, h2, ?_, ?_⟩
  · intro hb
    unfold loaderStep
    simp [hb]
  · intro e he hb
    cases e with
    | startCall => unfold loaderStep; simp [hb]
    | stopCall => exact hb
    | loopIteration => exact hb
    | loopFinish => exact absurd rfl he

/-- C9 witness: after a start and a loop exit the flag is down and no loop
is in flight; the theorem's implications are discharged at that state. -/
theorem single_loader_witness :
    (runLoader [LoaderEvent.startCall, LoaderEvent.loopFinish]).loopsInFlight = 0 ∧
    (loaderStep (runLoader [LoaderEvent.startCall]) .startCall =
      runLoader [LoaderEvent.startCall]) :=
  ⟨(single_loader_invariant [LoaderEvent.startCall, LoaderEvent.loopFinish]).2.1 (by decide),
   (single_loader_invariant [LoaderEvent.startCall]).2.2.1 (by decide)⟩

/-! ## Search characterization (claim C8) -/

/-- All items resident in the category cache, in scan order. -/
def allLoadedItems (s : CacheState) : List MediaItem :=
  (s.categoryCache.map Prod.snd).flatten

/-- The match test of the scan: lowercased display title contains the
normalized query. -/
def matchesQuery (normalized : String) (item : MediaItem) : Bool :=
  strIncludes (lowerStr (rawTitle item)) normalized

def dedupByIdStep (acc : List MediaItem × List String) (item : MediaItem) :
    List MediaItem × List String :=
  if acc.2.contains item.id then acc else (acc.1 ++ [item], acc.2 ++ [item.id])

/-- Keep the first item per local id. -/
def dedupById (items : List MediaItem) : List MediaItem :=
  (items.foldl dedupByIdStep ([], [])).1

/-- Modelled from the claim text of C8: exactly the loaded items whose
display title contains the normalized query, deduplicated by normalized
title only. -/
def searchSpecC8 (s : CacheState) (query : String) : List MediaItem :=
  if trimStr (lowerStr query) = "" then []
  else deduplicateByName ((allLoadedItems s).filter (matchesQuery (trimStr (lowerStr query))))

theorem scan_eq_filter_dedup (n : String) :
    ∀ (items : List MediaItem) (acc : List MediaItem × List String),
      items.foldl (searchScanStep n) acc =
        (items.filter (matchesQuery n)).foldl dedupByIdStep acc := by
  intro items
  induction items with
  | nil => intro acc; rfl
  | cons x rest ih =>
      intro acc
      cases hm : matchesQuery n x with
      | true =>
          have hstep : searchScanStep n acc x = dedupByIdStep acc x := by
            unfold searchScanStep dedupByIdStep
            unfold matchesQuery at hm
            by_cases hc : acc.2.contains x.id = true <;> simp [hc, hm]
          simp only [List.foldl_cons, List.filter_cons, hm, hstep]
          exact ih (dedupByIdStep acc x)
      | false =>
          have hstep : searchScanStep n acc x = acc := by
            unfold searchScanStep
            unfold matchesQuery at hm
            by_cases hc : acc.2.contains x.id = true <;> simp [hc, hm]
          simp only [List.foldl_cons, List.filter_cons, hm, hstep]
          exact ih acc

theorem nested_foldl_eq_join (f : (List MediaItem × List String) → MediaItem →
      (List MediaItem × List String)) :
    ∀ (L : List (String × List MediaItem)) (a0 : List MediaItem × List String),
      L.foldl (fun acc p => p.2.foldl f acc) a0 = ((L.map Prod.snd).flatten).foldl f a0 := by
  intro L
  induction L with
  | nil => intro a0; rfl
  | cons p rest ih =>
      intro a0
      simp only [List.foldl_cons, List.map_cons, List.flatten_cons, List.foldl_append]
      exact ih (p.2.foldl f a0)

theorem searchInLoadedData_eq (s : CacheState) (q : String) :
    searchInLoadedData s q =
      if trimStr (lowerStr q) = "" then []
      else dedupById ((allLoadedItems s).filter (matchesQuery (trimStr (lowerStr q)))) := by
  unfold searchInLoadedData
  by_cases hn : trimStr (lowerStr q) = ""
  · simp [hn]
  · simp only [hn, if_false]
    rw [nested_foldl_eq_join (searchScanStep (trimStr (lowerStr q))) s.categoryCache ([], []),
      scan_eq_filter_dedup (trimStr (lowerStr q)) _ ([], [])]
    rfl

/-- C8 counterexample: with two cached items sharing local id x — one with
tmdb title Foo, one without tmdb named Football — the query foo matches
both titles, yet searchMedia returns only the first: the scan
deduplicates by local id, so an item whose title matches is dropped.  The
claim predicts both, deduplicated by normalized title only. -/
theorem search_drops_matching_title :
    searchMedia
      (runFetches [⟨"acao", 1, .bodyArray
        [{ baseItem with id := "x", tmdb := some ⟨some 7, "Foo"⟩ },
         { baseItem with id := "x", name := "Football" }]⟩]) "foo" none ≠
    searchSpecC8
      (runFetches [⟨"acao", 1, .bodyArray
        [{ baseItem with id := "x", tmdb := some ⟨some 7, "Foo"⟩ },
         { baseItem with id := "x", name := "Football" }]⟩]) "foo" := by
  decide

/-- C8 amended: search lowercases and trims the query and returns the
empty list when the normalized query is empty; otherwise it returns the
loaded items whose lowercased display title contains the normalized query,
deduplicated first by local id during the scan (first occurrence of each
id wins, so a matching item is omitted when an earlier loaded item shares
its id) and then by trimmed-lowercased display title. -/
theorem search_characterization (s : CacheState) (query : String) :
    searchMedia s query none =
      if trimStr (lowerStr query) = "" then []
      else deduplicateByName
        (dedupById ((allLoadedItems s).filter
          (matchesQuery (trimStr (lowerStr query))))) := by
  unfold searchMedia
  rw [searchInLoadedData_eq]
  by_cases hn : trimStr (lowerStr query) = "" <;> simp [hn, deduplicateByName]

/-! ## Episode merge characterization (claims C2 and C1) -/

/-- Every episode number of the first list occurs in the second. -/
def numSub (l1 l2 : List Episode) : Prop :=
  ∀ e ∈ l1, ∃ f ∈ l2, f.episode = e.episode

theorem numSub_refl (l : List Episode) : numSub l l :=
  fun e he => ⟨e, he, rfl⟩

theorem numSub_trans {l1 l2 l3 : List Episode} (h12 : numSub l1 l2) (h23 : numSub l2 l3) :
    numSub l1 l3 := by
  intro e he
  obtain ⟨f, hf, hfe⟩ := h12 e he
  obtain ⟨g, hg, hge⟩ := h23 f hf
  exact ⟨g, hg, hge.trans hfe⟩

theorem mem_pushNew_left (eps : List Episode) :
    ∀ (acc : List Episode) (e : Episode), e ∈ acc → e ∈ pushNew acc eps := by
  induction eps with
  | nil => intro acc e he; exact he
  | cons ep rest ih =>
      intro acc e he
      unfold pushNew
      rw [List.foldl_cons]
      by_cases hany : acc.any (fun f => f.episode == ep.episode) = true
      · rw [if_pos hany]
        exact ih acc e he
      · rw [if_neg hany]
        exact ih (acc ++ [ep]) e (List.mem_append_left _ he)

theorem pushNew_num_mem (eps : List Episode) :
    ∀ (acc : List Episode) (ep : Episode), ep ∈ eps →
      ∃ f ∈ pushNew acc eps, f.episode = ep.episode := by
  induction eps with
  | nil => intro acc ep hmem; simp at hmem
  | cons e0 rest ih =>
      intro acc ep hmem
      unfold pushNew
      rw [List.foldl_cons]
      rcases List.mem_cons.mp hmem with rfl | hmem
      · by_cases hany : acc.any (fun f => f.episode == ep.episode) = true
        · rw [if_pos hany]
          obtain ⟨f, hf, hfe⟩ := List.any_eq_true.mp hany
          exact ⟨f, mem_pushNew_left rest acc f hf, by simpa using hfe⟩
        · rw [if_neg hany]
          exact ⟨ep, mem_pushNew_left rest _ ep (List.mem_append_right _ (by simp)), rfl⟩
      · by_cases hany : acc.any (fun f => f.episode == e0.episode) = true
        · rw [if_pos hany]; exact ih acc ep hmem
        · rw [if_neg hany]; exact ih (acc ++ [e0]) ep hmem

theorem pushNew_eq_of_sub (eps acc : List Episode) (h : numSub eps acc) :
    pushNew acc eps = acc := by
  induction eps with
  | nil => rfl
  | cons ep rest ih =>
      unfold pushNew
      rw [List.foldl_cons]
      have hany : acc.any (fun f => f.episode == ep.episode) = true := by
        obtain ⟨f, hf, hfe⟩ := h ep (by simp)
        exact List.any_eq_true.mpr ⟨f, hf, by simpa using hfe⟩
      rw [if_pos hany]
      exact ih (fun e he => h e (List.mem_cons_of_mem _ he))

theorem mem_pushNew_num_iff (eps : List Episode) :
    ∀ (acc : List Episode) (n : Int),
      (∃ e ∈ pushNew acc eps, e.episode = n) ↔
        (∃ e ∈ acc, e.episode = n) ∨ (∃ e ∈ eps, e.episode = n) := by
  induction eps with
  | nil => intro acc n; simp [pushNew]
  | cons ep rest ih =>
      intro acc n
      unfold pushNew
      rw [List.foldl_cons]
      by_cases hany : acc.any (fun f => f.episode == ep.episode) = true
      · rw [if_pos hany]
        rw [show (List.foldl _ acc rest : List Episode) = pushNew acc rest from rfl, ih]
        constructor
        · rintro (h | h)
          · exact Or.inl h
          · exact Or.inr ⟨h.choose, List.mem_cons_of_mem _ h.choose_spec.1, h.choose_spec.2⟩
        · rintro (h | ⟨e, he, hen⟩)
          · exact Or.inl h
          · rcases List.mem_cons.mp he with rfl | he
            · obtain ⟨f, hf, hfe⟩ := List.any_eq_true.mp hany
              exact Or.inl ⟨f, hf, by simp at hfe; rw [hfe, hen]⟩
            · exact Or.inr ⟨e, he, hen⟩
      · rw [if_neg hany]
        rw [show (List.foldl _ (acc ++ [ep]) rest : List Episode) = pushNew (acc ++ [ep]) rest
          from rfl, ih]
        constructor
        · rintro (⟨e, he, hen⟩ | h)
          · rcases List.mem_append.mp he with he | he
            · exact Or.inl ⟨e, he, hen⟩
            · simp at he
              subst he
              exact Or.inr ⟨e, by simp, hen⟩
          · exact Or.inr ⟨h.choose, List.mem_cons_of_mem _ h.choose_spec.1, h.choose_spec.2⟩
        · rintro (⟨e, he, hen⟩ | ⟨e, he, hen⟩)
          · exact Or.inl ⟨e, List.mem_append_left _ he, hen⟩
          · rcases List.mem_cons.mp he with rfl | he
            · exact Or.inl ⟨e, List.mem_append_right _ (by simp), hen⟩
            · exact Or.inr ⟨e, he, hen⟩

/-- Seasons whose key does not occur in the incoming object are untouched. -/
theorem mergeEpisodes_lookup_of_not_mem (newEps : Episodes) :
    ∀ (exEps : Episodes) (sn : String), (∀ p ∈ newEps, p.1 ≠ sn) →
      lookupA (mergeEpisodes exEps newEps) sn = lookupA exEps sn := by
  induction newEps with
  | nil => intro exEps sn _; rfl
  | cons p rest ih =>
      intro exEps sn hn
      unfold mergeEpisodes
      rw [List.foldl_cons]
      have hne : sn ≠ p.1 := fun h => hn p (by simp) h.symm
      have hstep : lookupA (mergeSeasonInto exEps p.1 p.2) sn = lookupA exEps sn := by
        unfold mergeSeasonInto
        cases lookupA exEps p.1 with
        | none => exact lookupA_setA_ne _ _ _ _ hne
        | some exList => exact lookupA_setA_ne _ _ _ _ hne
      rw [show (List.foldl _ (mergeSeasonInto exEps p.1 p.2) rest : Episodes) =
        mergeEpisodes (mergeSeasonInto exEps p.1 p.2) rest from rfl]
      rw [ih _ sn (fun q hq => hn q (List.mem_cons_of_mem _ hq)), hstep]

/-- Full lookup characterization of mergeEpisodes for an incoming episodes
object with distinct season keys (JS objects cannot repeat a key). -/
theorem mergeEpisodes_lookup (newEps : Episodes) :
    ∀ (exEps : Episodes), ((newEps.map Prod.fst).Nodup) → ∀ sn,
      lookupA (mergeEpisodes exEps newEps) sn =
        match lookupA newEps sn, lookupA exEps sn with
        | some l2, some l1 => some (sortEps (pushNew l1 l2))
        | some l2, none => some l2
        | none, _ => lookupA exEps sn := by
  induction newEps with
  | nil => intro exEps _ sn; simp [mergeEpisodes, lookupA]
  | cons p rest ih =>
      intro exEps hnod sn
      obtain ⟨s0, l0⟩ := p
      simp only [List.map_cons, List.nodup_cons] at hnod
      unfold mergeEpisodes
      rw [List.foldl_cons]
      rw [show (List.foldl _ (mergeSeasonInto exEps s0 l0) rest : Episodes) =
        mergeEpisodes (mergeSeasonInto exEps s0 l0) rest from rfl]
      by_cases hsn : s0 = sn
      · subst hsn
        have hrest : lookupA rest s0 = none :=
          (lookupA_eq_none_iff rest s0).mpr (by
            intro h
            exact hnod.1 h)
        rw [mergeEpisodes_lookup_of_not_mem rest _ s0 (by
          intro q hq h
          exact hnod.1 (h ▸ List.mem_map.mpr ⟨q, hq, rfl⟩))]
        simp only [lookupA, if_pos rfl]
        unfold mergeSeasonInto
        cases hx : lookupA exEps s0 with
        | none => rw [lookupA_setA_self]; simp
        | some l1 => rw [lookupA_setA_self]; simp
      · have hcons : lookupA ((s0, l0) :: rest) sn = lookupA rest sn := by
          simp [lookupA, hsn]
        have hstep : lookupA (mergeSeasonInto exEps s0 l0) sn = lookupA exEps sn := by
          unfold mergeSeasonInto
          have hne : sn ≠ s0 := fun h => hsn h.symm
          cases lookupA exEps s0 with
          | none => exact lookupA_setA_ne _ _ _ _ hne
          | some exList => exact lookupA_setA_ne _ _ _ _ hne
        rw [ih _ hnod.2 sn, hcons, hstep]

/-- Merging two records with one shared effective key reduces to a single
stored record whose episodes are mergeEpisodes of the two objects. -/
theorem dedup_two_records (r1 r2 : MediaItem) (E1 E2 : Episodes)
    (hkey : effectiveKey r2 = effectiveKey r1) (htv : r2.type = "tv")
    (h1 : r1.episodes = some E1) (h2 : r2.episodes = some E2) :
    deduplicateItems [r1, r2] =
      [{ r1 with episodes := some (mergeEpisodes E1 E2) }] := by
  unfold deduplicateItems
  simp only [List.foldl_cons, List.foldl_nil]
  have e1 : dedupStep [] r1 = [(effectiveKey r1, r1)] := rfl
  rw [e1]
  have e2 : dedupStep [(effectiveKey r1, r1)] r2 =
      [(effectiveKey r1, { r1 with episodes := some (mergeEpisodes E1 E2) })] := by
    simp [dedupStep, hkey, lookupA, h1, h2, htv, setA]
  rw [e2]
  rfl

/-- C2 counterexample: a season contributed only by the incoming record is
copied verbatim, without re-sorting — merging a record holding season 1
episode [1] with one holding season 1 episode [1] and season 2 episodes
[2, 1] leaves season 2 as [2, 1], which is not sorted ascending by episode
number, contradicting the claim that each merged season is kept sorted. -/
theorem episode_merge_unsorted_copy :
    lookupA
      (((deduplicateItems
        [{ baseItem with
            id := "x", type := "tv", episodes := some [("1", [mkEp 1])] },
         { baseItem with
            id := "x", type := "tv",
            episodes := some [("1", [mkEp 1]), ("2", [mkEp 2, mkEp 1])] }]).headD
        baseItem).episodes.getD []) "2" = some [mkEp 2, mkEp 1] ∧
    ¬ List.Sorted epLE [mkEp 2, mkEp 1] := by
  decide

/-- C2 amended: when two records share the same effective key, the second
is a tv record and both carry episodes, the merge stores a single record:
a season present on both sides becomes the dedup-by-episode-number union
of the two lists, sorted ascending; a season present only on the incoming
record is copied verbatim in its given order (not re-sorted); a season
absent from the incoming record is untouched.  The claim's concrete
instance — [1,2] merged with [2,3] plus a new season [1] giving [1,2,3]
and [1] — follows, but the universally claimed per-season sortedness holds
only for the shared seasons. -/
theorem episode_merge_characterization (r1 r2 : MediaItem) (E1 E2 : Episodes)
    (hkey : effectiveKey r2 = effectiveKey r1) (htv : r2.type = "tv")
    (h1 : r1.episodes = some E1) (h2 : r2.episodes = some E2)
    (hnod : (E2.map Prod.fst).Nodup) :
    deduplicateItems [r1, r2] =
      [{ r1 with episodes := some (mergeEpisodes E1 E2) }] ∧
    (∀ sn l1 l2, lookupA E1 sn = some l1 → lookupA E2 sn = some l2 →
      lookupA (mergeEpisodes E1 E2) sn = some (sortEps (pushNew l1 l2)) ∧
      List.Sorted epLE (sortEps (pushNew l1 l2)) ∧
      (∀ n : Int, (∃ e ∈ sortEps (pushNew l1 l2), e.episode = n) ↔
        (∃ e ∈ l1, e.episode = n) ∨ (∃ e ∈ l2, e.episode = n))) ∧
    (∀ sn l2, lookupA E1 sn = none → lookupA E2 sn = some l2 →
      lookupA (mergeEpisodes E1 E2) sn = some l2) ∧
    (∀ sn, lookupA E2 sn = none →
      lookupA (mergeEpisodes E1 E2) sn = lookupA E1 sn) := by
  refine ⟨dedup_two_records r1 r2 E1 E2 hkey htv h1 h2, ?_, ?_, ?_⟩
  · intro sn l1 l2 hl1 hl2
    refine ⟨?_, sortEps_sorted _, ?_⟩
    · rw [mergeEpisodes_lookup E2 E1 hnod sn, hl1, hl2]
    · intro n
      have hperm := sortEps_perm (pushNew l1 l2)
      constructor
      · rintro ⟨e, he, hen⟩
        exact (mem_pushNew_num_iff l2 l1 n).mp ⟨e, hperm.mem_iff.mp he, hen⟩
      · intro h
        obtain ⟨e, he, hen⟩ := (mem_pushNew_num_iff l2 l1 n).mpr h
        exact ⟨e, hperm.mem_iff.mpr he, hen⟩
  · intro sn l2 hl1 hl2
    rw [mergeEpisodes_lookup E2 E1 hnod sn, hl1, hl2]
  · intro sn hl2
    rw [mergeEpisodes_lookup E2 E1 hnod sn, hl2]

/-- C2 witness: the concrete instance of the claim — season 1 lists [1,2]
and [2,3] merge to [1,2,3] with episode 2 not duplicated, and the new
season 2 list is [1]. -/
theorem episode_merge_example :
    lookupA (mergeEpisodes [("1", [mkEp 1, mkEp 2])]
      [("1", [mkEp 2, mkEp 3]), ("2", [mkEp 1])]) "1" =
        some [mkEp 1, mkEp 2, mkEp 3] ∧
    lookupA (mergeEpisodes [("1", [mkEp 1, mkEp 2])]
      [("1", [mkEp 2, mkEp 3]), ("2", [mkEp 1])]) "2" = some [mkEp 1] ∧
    deduplicateItems
      [{ baseItem with
          id := "x", type := "tv", episodes := some [("1", [mkEp 1, mkEp 2])] },
       { baseItem with
          id := "x", type := "tv",
          episodes := some [("1", [mkEp 2, mkEp 3]), ("2", [mkEp 1])] }] =
      [{ baseItem with
          id := "x", type := "tv",
          episodes := some (mergeEpisodes [("1", [mkEp 1, mkEp 2])]
            [("1", [mkEp 2, mkEp 3]), ("2", [mkEp 1])]) }] := by
  have h := episode_merge_characterization
    { baseItem with
        id := "x", type := "tv", episodes := some [("1", [mkEp 1, mkEp 2])] }
    { baseItem with
        id := "x", type := "tv",
        episodes := some [("1", [mkEp 2, mkEp 3]), ("2", [mkEp 1])] }
    [("1", [mkEp 1, mkEp 2])] [("1", [mkEp 2, mkEp 3]), ("2", [mkEp 1])]
    (by decide) rfl rfl rfl (by decide)
  refine ⟨?_, h.2.2.1 "2" [mkEp 1] (by decide) (by decide), h.1⟩
  have hb := (h.2.1 "1" [mkEp 1, mkEp 2] [mkEp 2, mkEp 3] (by decide) (by decide)).1
  rw [hb]
  decide

/-! ## Idempotence of the merge (claim C1)

Merging the same page twice is the identity on the key map exactly when
every season list the page carries is already sorted: the second merge
re-runs the dedup-and-sort on shared seasons, which is the identity on a
sorted list with no new numbers, but it also sorts seasons that the first
merge copied verbatim.  Well-formedness of a page: each episodes object
has distinct season keys (JS objects cannot repeat keys) and each season
list is sorted ascending by episode number. -/

def itemEpisodesWfB (item : MediaItem) : Bool :=
  match item.episodes with
  | none => true
  | some eps =>
      decide ((eps.map Prod.fst).Nodup) && eps.all (fun p => decide (List.Sorted epLE p.2))

def pageWfB (page : List MediaItem) : Bool := page.all itemEpisodesWfB

theorem itemEpisodesWfB_spec (item : MediaItem) (h : itemEpisodesWfB item = true)
    (eps : Episodes) (he : item.episodes = some eps) :
    (eps.map Prod.fst).Nodup ∧ ∀ p ∈ eps, List.Sorted epLE p.2 := by
  unfold itemEpisodesWfB at h
  rw [he] at h
  simp only [Bool.and_eq_true, decide_eq_true_eq, List.all_eq_true] at h
  exact ⟨h.1, fun p hp => h.2 p hp⟩

/-- The stored episodes object subsumes the incoming one: every incoming
season is present with a sorted list covering its episode numbers. -/
def epsSubsumed (exEps newEps : Episodes) : Prop :=
  ∀ p ∈ newEps, ∃ m, lookupA exEps p.1 = some m ∧ numSub p.2 m ∧ List.Sorted epLE m

/-- A subsumed incoming object merges to nothing: dedup adds no episode,
the sort is the identity on the sorted stored list, and the write-back
stores the value already present. -/
theorem mergeEpisodes_eq_of_subsumed (newEps : Episodes) :
    ∀ exEps, epsSubsumed exEps newEps → mergeEpisodes exEps newEps = exEps := by
  induction newEps with
  | nil => intro exEps _; rfl
  | cons p rest ih =>
      intro exEps h
      obtain ⟨m, hl, hsub, hsort⟩ := h p (by simp)
      unfold mergeEpisodes
      rw [List.foldl_cons]
      have hstep : mergeSeasonInto exEps p.1 p.2 = exEps := by
        unfold mergeSeasonInto
        rw [hl]
        dsimp only
        rw [pushNew_eq_of_sub p.2 m hsub, sortEps_eq_of_sorted hsort]
        exact setA_eq_self _ _ _ hl
      rw [hstep]
      exact ih exEps (fun q hq => h q (List.mem_cons_of_mem _ hq))

/-- Merging any incoming object preserves a sorted stored season up to a
sorted superset of its episode numbers. -/
theorem mergeEpisodes_mono (yEps : Episodes) :
    ∀ (exEps : Episodes) (sn : String) (l : List Episode),
      lookupA exEps sn = some l → List.Sorted epLE l →
      ∃ m, lookupA (mergeEpisodes exEps yEps) sn = some m ∧
        List.Sorted epLE m ∧ numSub l m := by
  induction yEps with
  | nil => intro exEps sn l hl hs; exact ⟨l, hl, hs, numSub_refl l⟩
  | cons q rest ih =>
      intro exEps sn l hl hs
      unfold mergeEpisodes
      rw [List.foldl_cons]
      rw [show (List.foldl (fun acc p => mergeSeasonInto acc p.1 p.2)
        (mergeSeasonInto exEps q.1 q.2) rest : Episodes) =
        mergeEpisodes (mergeSeasonInto exEps q.1 q.2) rest from rfl]
      by_cases hq : q.1 = sn
      · have hstep : lookupA (mergeSeasonInto exEps q.1 q.2) sn =
            some (sortEps (pushNew l q.2)) := by
          unfold mergeSeasonInto
          rw [hq, hl, lookupA_setA_self]
        have hsub : numSub l (sortEps (pushNew l q.2)) := fun e he =>
          ⟨e, (sortEps_perm _).mem_iff.mpr (mem_pushNew_left q.2 l e he), rfl⟩
        obtain ⟨m, hm, hms, hmn⟩ :=
          ih (mergeSeasonInto exEps q.1 q.2) sn (sortEps (pushNew l q.2)) hstep
            (sortEps_sorted _)
        exact ⟨m, hm, hms, numSub_trans hsub hmn⟩
      · have hne : sn ≠ q.1 := fun h => hq h.symm
        have hstep : lookupA (mergeSeasonInto exEps q.1 q.2) sn = some l := by
          unfold mergeSeasonInto
          cases lookupA exEps q.1 with
          | none => rw [lookupA_setA_ne _ _ _ _ hne]; exact hl
          | some exList => rw [lookupA_setA_ne _ _ _ _ hne]; exact hl
        exact ih (mergeSeasonInto exEps q.1 q.2) sn l hstep hs

theorem mergeEpisodes_lookup_mem (newEps : Episodes) :
    ∀ (exEps : Episodes) (sn : String) (eps : List Episode),
      (sn, eps) ∈ newEps → (newEps.map Prod.fst).Nodup → List.Sorted epLE eps →
      ∃ m, lookupA (mergeEpisodes exEps newEps) sn = some m ∧
        List.Sorted epLE m ∧ numSub eps m := by
  induction newEps with
  | nil => intro _ _ _ hmem _ _; simp at hmem
  | cons q rest ih =>
      intro exEps sn eps hmem hnod hsort
      obtain ⟨s0, l0⟩ := q
      simp only [List.map_cons, List.nodup_cons] at hnod
      unfold mergeEpisodes
      rw [List.foldl_cons]
      rw [show (List.foldl (fun acc p => mergeSeasonInto acc p.1 p.2)
        (mergeSeasonInto exEps s0 l0) rest : Episodes) =
        mergeEpisodes (mergeSeasonInto exEps s0 l0) rest from rfl]
      rcases List.mem_cons.mp hmem with heq | hmem
      · cases heq
        have hrest : ∀ p ∈ rest, p.1 ≠ sn := fun p hp h =>
          hnod.1 (h ▸ List.mem_map.mpr ⟨p, hp, rfl⟩)
        rw [mergeEpisodes_lookup_of_not_mem rest _ sn hrest]
        unfold mergeSeasonInto
        cases hx : lookupA exEps sn with
        | none =>
            rw [lookupA_setA_self]
            exact ⟨eps, rfl, hsort, numSub_refl eps⟩
        | some l1 =>
            rw [lookupA_setA_self]
            refine ⟨sortEps (pushNew l1 eps), rfl, sortEps_sorted _, ?_⟩
            intro e he
            obtain ⟨f, hf, hfe⟩ := pushNew_num_mem eps l1 e he
            exact ⟨f, (sortEps_perm _).mem_iff.mpr hf, hfe⟩
      · exact ih (mergeSeasonInto exEps s0 l0) sn eps hmem hnod.2 hsort

/-- The key map subsumes an item: its key is stored, and when the item is
a tv item with episodes and the stored item has episodes, the stored
episodes subsume the incoming ones. -/
def subsumes (m : ItemMap) (x : MediaItem) : Prop :=
  ∃ stored, lookupA m (effectiveKey x) = some stored ∧
    (x.type = "tv" → ∀ exEps newEps, stored.episodes = some exEps →
      x.episodes = some newEps → epsSubsumed exEps newEps)

theorem dedupStep_establishes (m : ItemMap) (x : MediaItem)
    (hx : itemEpisodesWfB x = true) : subsumes (dedupStep m x) x := by
  unfold dedupStep
  cases hl : lookupA m (effectiveKey x) with
  | none =>
      refine ⟨x, ?_, ?_⟩
      · rw [lookupA_append, hl]
        simp [lookupA]
      · intro htv exEps newEps hex hne
        rw [hne] at hex
        injection hex with hex
        subst hex
        obtain ⟨hnod, hsort⟩ := itemEpisodesWfB_spec x hx newEps hne
        intro p hp
        have hpm : (p.1, p.2) ∈ newEps := by simpa using hp
        exact ⟨p.2, lookupA_of_mem_nodup _ _ _ hpm hnod, numSub_refl _, hsort p hp⟩
  | some existing =>
      dsimp only
      by_cases hguard : x.type = "tv" ∧ x.episodes.isSome
      · rw [if_pos hguard]
        cases hex : existing.episodes with
        | none =>
            cases hne : x.episodes with
            | none =>
                exact ⟨existing, hl, fun htv exEps newEps hex2 hne2 => by
                  rw [hne] at hne2; cases hne2⟩
            | some newEps =>
                exact ⟨existing, hl, fun htv exEps newEps2 hex2 _ => by
                  rw [hex] at hex2; cases hex2⟩
        | some exEps =>
            cases hne : x.episodes with
            | none =>
                exact ⟨existing, hl, fun htv exEps2 newEps hex2 hne2 => by
                  rw [hne] at hne2; cases hne2⟩
            | some newEps =>
                refine ⟨{ existing with episodes := some (mergeEpisodes exEps newEps) },
                  lookupA_setA_self _ _ _, ?_⟩
                intro htv exEps2 newEps2 hex2 hne2
                simp only at hex2
                injection hex2 with hex2
                subst hex2
                rw [hne] at hne2
                injection hne2 with hne2
                subst hne2
                obtain ⟨hnod, hsort⟩ := itemEpisodesWfB_spec x hx newEps hne
                intro p hp
                have hpm : (p.1, p.2) ∈ newEps := by simpa using hp
                obtain ⟨mm, hmm, hms, hmn⟩ :=
                  mergeEpisodes_lookup_mem newEps exEps p.1 p.2 hpm hnod (hsort p hp)
                exact ⟨mm, hmm, hmn, hms⟩
      · rw [if_neg hguard]
        refine ⟨existing, hl, ?_⟩
        intro htv exEps newEps hex hne
        exact absurd ⟨htv, by rw [hne]; rfl⟩ hguard

theorem dedupStep_preserves (m : ItemMap) (x y : MediaItem) (h : subsumes m x) :
    subsumes (dedupStep m y) x := by
  obtain ⟨stored, hlook, hcond⟩ := h
  unfold dedupStep
  cases hly : lookupA m (effectiveKey y) with
  | none =>
      refine ⟨stored, ?_, hcond⟩
      rw [lookupA_append, hlook]
  | some existingY =>
      dsimp only
      by_cases hguard : y.type = "tv" ∧ y.episodes.isSome
      · rw [if_pos hguard]
        cases hey : existingY.episodes with
        | none =>
            cases hny : y.episodes with
            | none => exact ⟨stored, hlook, hcond⟩
            | some yEps => exact ⟨stored, hlook, hcond⟩
        | some exEpsY =>
            cases hny : y.episodes with
            | none => exact ⟨stored, hlook, hcond⟩
            | some yEps =>
                by_cases hk : effectiveKey x = effectiveKey y
                · have hsame : stored = existingY := by
                    rw [hk] at hlook
                    rw [hlook] at hly
                    injection hly
                  refine ⟨{ existingY with
                      episodes := some (mergeEpisodes exEpsY yEps) }, ?_, ?_⟩
                  · rw [hk, lookupA_setA_self]
                  · intro htv exEps2 newEps2 hex2 hne2
                    simp only at hex2
                    injection hex2 with hex2
                    subst hex2
                    have hold := hcond htv exEpsY newEps2 (hsame ▸ hey) hne2
                    intro p hp
                    obtain ⟨m0, hm0, hsub0, hsort0⟩ := hold p hp
                    obtain ⟨m1, hm1, hsort1, hsub1⟩ :=
                      mergeEpisodes_mono yEps exEpsY p.1 m0 hm0 hsort0
                    exact ⟨m1, hm1, numSub_trans hsub0 hsub1, hsort1⟩
                · refine ⟨stored, ?_, hcond⟩
                  rw [lookupA_setA_ne _ _ _ _ hk]
                  exact hlook
      · rw [if_neg hguard]
        exact ⟨stored, hlook, hcond⟩

theorem fold_preserves_subsumes (l : List MediaItem) (m : ItemMap) (x : MediaItem)
    (h : subsumes m x) : subsumes (l.foldl dedupStep m) x :=
  foldl_inv dedupStep (fun mm => subsumes mm x)
    (fun mm y hh => dedupStep_preserves mm x y hh) l m h

theorem fold_establishes (l : List MediaItem) (x : MediaItem)
    (hwf : itemEpisodesWfB x = true) :
    ∀ m : ItemMap, x ∈ l → subsumes (l.foldl dedupStep m) x := by
  induction l with
  | nil => intro m hx; simp at hx
  | cons y rest ih =>
      intro m hx
      rw [List.foldl_cons]
      rcases List.mem_cons.mp hx with rfl | hx2
      · exact fold_preserves_subsumes rest _ x (dedupStep_establishes m x hwf)
      · exact ih _ hx2

theorem dedupStep_absorbed (m : ItemMap) (x : MediaItem) (h : subsumes m x) :
    dedupStep m x = m := by
  obtain ⟨stored, hlook, hcond⟩ := h
  unfold dedupStep
  rw [hlook]
  dsimp only
  by_cases hguard : x.type = "tv" ∧ x.episodes.isSome
  · rw [if_pos hguard]
    cases hex : stored.episodes with
    | none =>
        cases hne : x.episodes with
        | none => rfl
        | some newEps => rfl
    | some exEps =>
        cases hne : x.episodes with
        | none => rfl
        | some newEps =>
            have hsubs := hcond hguard.1 exEps newEps hex hne
            dsimp only
            rw [mergeEpisodes_eq_of_subsumed newEps exEps hsubs]
            have heta : ({ stored with episodes := some exEps } : MediaItem) = stored := by
              rw [← hex]
            rw [heta]
            exact setA_eq_self m _ stored hlook
  · rw [if_neg hguard]

theorem fold_absorbed (l : List MediaItem) (m : ItemMap)
    (h : ∀ x ∈ l, dedupStep m x = m) : l.foldl dedupStep m = m := by
  induction l with
  | nil => rfl
  | cons x rest ih =>
      rw [List.foldl_cons, h x (by simp)]
      exact ih (fun y hy => h y (List.mem_cons_of_mem _ hy))

/-- Re-folding the value list of a well-formed key map rebuilds the map. -/
theorem refold (m : ItemMap) :
    ∀ (pre : ItemMap), (∀ p ∈ m, effectiveKey p.2 = p.1) →
      ((pre ++ m).map Prod.fst).Nodup →
      (m.map Prod.snd).foldl dedupStep pre = pre ++ m := by
  induction m with
  | nil => intro pre _ _; simp
  | cons q rest ih =>
      intro pre hkeys hnod
      obtain ⟨k, v⟩ := q
      have hk : effectiveKey v = k := hkeys (k, v) (by simp)
      simp only [List.map_cons, List.foldl_cons]
      have hkpre : k ∉ pre.map Prod.fst := by
        intro hmem
        rw [List.map_append] at hnod
        have hdisj := (List.nodup_append.mp hnod).2.2
        exact hdisj hmem (by simp)
      have hnone : lookupA pre (effectiveKey v) = none := by
        rw [hk, lookupA_eq_none_iff]
        exact hkpre
      have hstep : dedupStep pre v = pre ++ [(k, v)] := by
        unfold dedupStep
        rw [hnone, hk]
      rw [hstep]
      have hres := ih (pre ++ [(k, v)])
        (fun p hp => hkeys p (List.mem_cons_of_mem _ hp))
        (by rw [List.append_assoc]; simpa using hnod)
      rw [hres, List.append_assoc]
      rfl

/-- C1 counterexample: merging a page whose only item carries an unsorted
season list is NOT idempotent — the first merge copies season 1 as [2, 1]
verbatim, the second merge finds the season on both sides, adds nothing
(both numbers are present) but re-sorts it to [1, 2], so the merged list
changes. -/
theorem dedup_merge_twice_ne_merge_once :
    deduplicateItems
        (deduplicateItems ([] ++ [{ baseItem with
          id := "x", type := "tv", episodes := some [("1", [mkEp 2, mkEp 1])] }]) ++
          [{ baseItem with
            id := "x", type := "tv", episodes := some [("1", [mkEp 2, mkEp 1])] }]) ≠
      deduplicateItems ([] ++ [{ baseItem with
        id := "x", type := "tv", episodes := some [("1", [mkEp 2, mkEp 1])] }]) := by
  decide

/-- C1 amended: merging the same page into an accumulated list twice
yields the same item list as merging it once, PROVIDED every episodes
object the page carries is well formed: distinct season keys (JS objects
cannot repeat keys) and every per-season list already sorted ascending by
episode number — a page with an unsorted season list changes on the second
merge, which sorts it.  The merged list carries no duplicate effective
keys, and a repeated fetch of an already-cached page is unconditionally a
no-op returning the cached items with the state unchanged. -/
theorem merge_idempotent_of_wf (acc page : List MediaItem)
    (hwf : pageWfB page = true) :
    deduplicateItems (deduplicateItems (acc ++ page) ++ page) =
      deduplicateItems (acc ++ page) ∧
    (deduplicateItems (acc ++ page)).Pairwise
      (fun a b => effectiveKey a ≠ effectiveKey b) ∧
    (∀ (s : CacheState) (c : String) (p : Int) (resp : PageResponse)
        (items : List MediaItem),
      lookupA s.pageCache (c, p) = some items → fetchPage s c p resp = (items, s)) := by
  refine ⟨?_, dedup_pairwise _,
    fun s c p resp items h => fetchPage_cached s c p resp items h⟩
  obtain ⟨hkeys, hnod⟩ := wfMap_fold (acc ++ page)
  have h1 : deduplicateItems (acc ++ page) =
      ((acc ++ page).foldl dedupStep []).map Prod.snd := rfl
  rw [h1]
  unfold deduplicateItems
  rw [List.foldl_append]
  rw [refold ((acc ++ page).foldl dedupStep []) [] hkeys (by simpa using hnod)]
  simp only [List.nil_append]
  rw [fold_absorbed page ((acc ++ page).foldl dedupStep []) (fun x hx =>
    dedupStep_absorbed _ x
      (fold_establishes (acc ++ page) x
        (List.all_eq_true.mp hwf x hx) [] (List.mem_append_right _ hx)))]

/-- C1 witness: a page with one sorted tv item merges idempotently. -/
theorem merge_idempotent_witness :
    pageWfB [{ baseItem with
      id := "x", type := "tv", episodes := some [("1", [mkEp 1, mkEp 2])] }] = true ∧
    deduplicateItems
        (deduplicateItems ([] ++ [{ baseItem with
          id := "x", type := "tv", episodes := some [("1", [mkEp 1, mkEp 2])] }]) ++
          [{ baseItem with
            id := "x", type := "tv", episodes := some [("1", [mkEp 1, mkEp 2])] }]) =
      deduplicateItems ([] ++ [{ baseItem with
        id := "x", type := "tv", episodes := some [("1", [mkEp 1, mkEp 2])] }]) :=
  ⟨by decide,
   (merge_idempotent_of_wf [] [{ baseItem with
      id := "x", type := "tv", episodes := some [("1", [mkEp 1, mkEp 2])] }]
      (by decide)).1⟩

end SaimoCell
